import Mathlib

/-!
Verification of the grid-propagation `step` function of
`src/examples/cpp/Advent-of-Code-2021-day_11/solver.cpp`.

The C++ source:

  int step(std::vector<std::string>& levels) {
      const int R = static_cast<int>(levels.size());
      const int C = static_cast<int>(levels.at(0).length());
      std::queue<std::pair<int, int>> Q;
      for (int r = 0; r < R; r++) for (int c = 0; c < C; c++)
          Q.emplace(r, c);
      int num_flashes = 0;
      while (!Q.empty()) {
          const auto [r, c] = Q.front();
          Q.pop();
          if (levels[r][c] == 9) {   -- char comparison with the digit 9
              num_flashes++;
              for (int dr : {-1, 0, 1})
                  for (int dc : {-1, 0, 1}) {
                      if (!dr and !dc) continue;
                      if (0 <= r + dr and r + dr < R and
                          0 <= c + dc and c + dc < C)
                          Q.emplace(r + dr, c + dc);
                  }
          }
          levels[r][c]++;
      }
      for (int r = 0; r < R; r++) for (int c = 0; c < C; c++)
          if (levels[r][c] > 9) levels[r][c] = 0;  -- digit chars
      return num_flashes;
  }

Embedding choices:
* Cells are `Nat` holding the digit value (`char - 48`); the source only
  ever compares against the digit 9, increments, and resets, so the shift
  by 48 is immaterial.  A cell is incremented at most 9 times per step
  (once per dequeue of it, and at most `1 + 8` dequeues), so the char
  never overflows in the source and plain `Nat` arithmetic is faithful.
* The grid is a `List (List Nat)`; `std::queue` is a FIFO list (dequeue
  at the head, enqueue at the tail).
* The C++ `while (!Q.empty())` loop is modelled with fuel; a fuel value
  sufficient for every run on a valid grid is supplied by `stepRun`, and
  emptiness of the remaining queue is proved (`C9_step_terminates`).
* Out-of-bounds accesses (`operator[]` past the end, undefined behaviour
  in the source, reachable only for invalid grids) are totalised: reads
  yield 0 and writes are dropped.
* `levels.at(0)` throws for an empty grid; this is the `none` result of
  `step`.
* Besides the grid, the remaining queue, the trace of dequeued
  coordinates, and the trace of flashed coordinates are returned as
  ghost state (`num_flashes` of the source is the length of the flash
  trace, which grows by exactly one element at each `num_flashes++`).
-/

abbrev Grid := List (List Nat)

abbrev Pos := Nat × Nat

/-- Read a cell; out-of-bounds reads yield 0 (undefined behaviour in the
source, which never performs them on valid grids). -/
def getCell (g : Grid) (p : Pos) : Nat :=
  (g.getD p.1 []).getD p.2 0

/-- Write a cell; out-of-bounds writes are dropped. -/
def setCell (g : Grid) (p : Pos) (v : Nat) : Grid :=
  g.set p.1 ((g.getD p.1 []).set p.2 v)

/-- The increment `levels[r][c]++` of the source (line 26). -/
def incCell (g : Grid) (p : Pos) : Grid :=
  setCell g p (getCell g p + 1)

/-- The eight neighbour offsets, in the source's iteration order
(`dr` outer, `dc` inner, `(0,0)` skipped by `continue`). -/
def offsets : List (Int × Int) :=
  [(-1, -1), (-1, 0), (-1, 1), (0, -1), (0, 1), (1, -1), (1, 0), (1, 1)]

/-- The in-bounds neighbours of `p` in an `R × C` grid, in the source's
enqueue order: offsets yielding coordinates outside `[0,R) × [0,C)` are
filtered out by the guard of lines 21–22. -/
def neighbors (R C : Nat) (p : Pos) : List Pos :=
  offsets.filterMap fun d =>
    if 0 ≤ (p.1 : Int) + d.1 ∧ (p.1 : Int) + d.1 < (R : Int) ∧
        0 ≤ (p.2 : Int) + d.2 ∧ (p.2 : Int) + d.2 < (C : Int) then
      some (((p.1 : Int) + d.1).toNat, ((p.2 : Int) + d.2).toNat)
    else
      none

/-- The initial queue: every coordinate once, row-major (lines 10–11). -/
def initQueue (R C : Nat) : List Pos :=
  (List.range R).flatMap fun r => (List.range C).map fun c => (r, c)

/-- Result of running the work-queue loop: final grid, remaining queue
(empty unless the fuel ran out), and the ghost traces of dequeued and of
flashed coordinates. -/
structure RunOut where
  grid : Grid
  queue : List Pos
  visited : List Pos
  flashed : List Pos
  deriving Repr, DecidableEq

/-- The `while (!Q.empty())` loop of lines 13–27, with fuel.  Each
iteration dequeues `p`; if its current value is 9 the flash is recorded
and the in-bounds neighbours are enqueued; the cell is then incremented
unconditionally. -/
def runQueue (R C : Nat) : Nat → Grid → List Pos → List Pos → List Pos → RunOut
  | 0, g, q, vis, fl => ⟨g, q, vis, fl⟩
  | _ + 1, g, [], vis, fl => ⟨g, [], vis, fl⟩
  | fuel + 1, g, p :: rest, vis, fl =>
    if getCell g p = 9 then
      runQueue R C fuel (incCell g p) (rest ++ neighbors R C p) (vis ++ [p]) (fl ++ [p])
    else
      runQueue R C fuel (incCell g p) rest (vis ++ [p]) fl

/-- The final sweep of lines 28–29: every over-threshold cell is reset
to 0.  (The source iterates `r < R, c < C`; on a rectangular grid that
is exactly a map over all cells.) -/
def sweep (g : Grid) : Grid :=
  g.map fun row => row.map fun v => if 9 < v then 0 else v

/-- The queue phase of `step` on a non-empty grid: `R` and `C` are fixed
from the input (lines 7–8), every coordinate is enqueued once, and the
loop runs to completion.  The fuel `9 * R * C + 1` dominates the loop's
decreasing potential `|Q| + 8 * #{cells ≤ 9}` (see
`runQueue_queue_eq_nil`), so on a valid grid the queue always empties
within it. -/
def stepRun (levels : Grid) : RunOut :=
  let R := levels.length
  let C := (levels.headD []).length
  runQueue R C (9 * R * C + 1) levels (initQueue R C) [] []

/-- The whole of `step`.  Here `none` models the `std::out_of_range`
exception thrown by `levels.at(0)` on an empty grid; otherwise the
mutated grid and the flash count are returned. -/
def step (levels : Grid) : Option (Grid × Nat) :=
  if levels.isEmpty then none
  else
    some (sweep (stepRun levels).grid, (stepRun levels).flashed.length)

/-- The grid is non-empty and all rows have the length of row 0. -/
def rectangularB (g : Grid) : Bool :=
  !g.isEmpty && g.all fun row => row.length == (g.headD []).length

/-- A valid input: non-empty, rectangular, all cells in `[0, 9]`. -/
def validB (g : Grid) : Bool :=
  rectangularB g && g.all fun row => row.all fun v => v ≤ 9

/-- Whether `p` addresses an actual cell of `g`. -/
def inBoundsOf (g : Grid) (p : Pos) : Prop :=
  p.1 < g.length ∧ p.2 < (g.getD p.1 []).length

instance (g : Grid) (p : Pos) : Decidable (inBoundsOf g p) := by
  unfold inBoundsOf; infer_instance

/-! ### Basic facts about cell access -/

lemma incCell_def (g : Grid) (p : Pos) :
    incCell g p = g.set p.1 ((g.getD p.1 []).set p.2 (getCell g p + 1)) := rfl

lemma getCell_of_not_inBounds (g : Grid) (p : Pos) (h : ¬ inBoundsOf g p) :
    getCell g p = 0 := by
  unfold inBoundsOf at h
  push_neg at h
  by_cases h1 : p.1 < g.length
  · have h2 := h h1
    unfold getCell
    exact List.getD_eq_default _ _ h2
  · unfold getCell
    rw [List.getD_eq_default _ _ (Nat.le_of_not_lt h1)]
    simp

lemma inBoundsOf_of_getCell_ne_zero {g : Grid} {p : Pos} (h : getCell g p ≠ 0) :
    inBoundsOf g p := by
  by_contra hc
  exact h (getCell_of_not_inBounds g p hc)

lemma getD_set (l : List Nat) (i j : Nat) (v d : Nat) :
    (l.set i v).getD j d = if i = j ∧ i < l.length then v else l.getD j d := by
  by_cases h : i = j
  · subst h
    by_cases hb : i < l.length
    · rw [List.getD_eq_getElem _ _ (by simpa using hb), List.getElem_set_self, if_pos ⟨rfl, hb⟩]
    · rw [List.set_eq_of_length_le (Nat.le_of_not_lt hb), if_neg (by tauto)]
  · rw [List.getD_eq_getElem?_getD, List.getElem?_set_ne h,
      ← List.getD_eq_getElem?_getD, if_neg (by tauto)]

lemma getDRow_set (g : Grid) (i j : Nat) (row : List Nat) :
    (g.set i row).getD j [] = if i = j ∧ i < g.length then row else g.getD j [] := by
  by_cases h : i = j
  · subst h
    by_cases hb : i < g.length
    · rw [List.getD_eq_getElem _ _ (by simpa using hb), List.getElem_set_self, if_pos ⟨rfl, hb⟩]
    · rw [List.set_eq_of_length_le (Nat.le_of_not_lt hb), if_neg (by tauto)]
  · rw [List.getD_eq_getElem?_getD, List.getElem?_set_ne h,
      ← List.getD_eq_getElem?_getD, if_neg (by tauto)]

lemma getCell_setCell (g : Grid) (p q : Pos) (v : Nat) :
    getCell (setCell g p v) q =
      if q = p ∧ inBoundsOf g p then v else getCell g q := by
  obtain ⟨p1, p2⟩ := p
  obtain ⟨q1, q2⟩ := q
  unfold getCell setCell inBoundsOf
  simp only [Prod.mk.injEq, Prod.fst, Prod.snd]
  rw [getDRow_set]
  by_cases h1 : p1 = q1
  · subst h1
    by_cases hb1 : p1 < g.length
    · rw [if_pos ⟨rfl, hb1⟩, getD_set]
      by_cases h2 : p2 = q2
      · subst h2
        by_cases hb2 : p2 < (g.getD p1 []).length
        · rw [if_pos ⟨rfl, hb2⟩, if_pos ⟨⟨rfl, rfl⟩, hb1, hb2⟩]
        · rw [if_neg (by tauto), if_neg (by tauto)]
      · rw [if_neg (by tauto), if_neg (by tauto)]
    · rw [if_neg (by tauto), if_neg (by tauto)]
  · rw [if_neg (by tauto), if_neg (by tauto)]

lemma getCell_incCell (g : Grid) (p q : Pos) :
    getCell (incCell g p) q =
      if q = p ∧ inBoundsOf g p then getCell g p + 1 else getCell g q :=
  getCell_setCell g p q _

lemma getCell_incCell_self {g : Grid} {p : Pos} (h : inBoundsOf g p) :
    getCell (incCell g p) p = getCell g p + 1 := by
  rw [getCell_incCell]
  simp [h]

lemma getCell_incCell_ne {g : Grid} {p q : Pos} (h : q ≠ p) :
    getCell (incCell g p) q = getCell g q := by
  rw [getCell_incCell]
  simp [h]

lemma getCell_le_incCell (g : Grid) (p q : Pos) :
    getCell g q ≤ getCell (incCell g p) q := by
  rw [getCell_incCell]
  split
  · rename_i hc
    rw [hc.1]
    exact Nat.le_succ _
  · exact Nat.le_refl _

lemma list_set_getD_self {α : Type} : ∀ (l : List α) (i : Nat) (d : α), i < l.length →
    l.set i (l.getD i d) = l := by
  intro l
  induction l with
  | nil => intro i d h; simp at h
  | cons a t ih =>
    intro i d h
    cases i with
    | zero => simp
    | succ n =>
      simp only [List.set_cons_succ, List.getD_cons_succ]
      rw [ih n d (by simpa using h)]

lemma incCell_of_not_inBounds {g : Grid} {p : Pos} (h : ¬ inBoundsOf g p) :
    incCell g p = g := by
  unfold incCell setCell
  unfold inBoundsOf at h
  push_neg at h
  by_cases h1 : p.1 < g.length
  · have h2 := Nat.le_of_not_lt (by omega : ¬ p.2 < (g.getD p.1 []).length)
    rw [List.set_eq_of_length_le h2]
    exact list_set_getD_self g p.1 [] h1
  · exact List.set_eq_of_length_le (Nat.le_of_not_lt h1)

/-! ### Shape preservation -/

/-- The row lengths of a grid; only cell values may change inside the
loop, so this is invariant. -/
def shape (g : Grid) : List Nat :=
  g.map List.length

lemma length_getD_shape (g : Grid) (i : Nat) :
    (g.getD i []).length = (shape g).getD i 0 := by
  by_cases h : i < g.length
  · rw [List.getD_eq_getElem _ _ h, List.getD_eq_getElem _ _ (by simpa [shape] using h)]
    simp [shape]
  · rw [List.getD_eq_default _ _ (Nat.le_of_not_lt h),
      List.getD_eq_default _ _ (by simpa [shape] using Nat.le_of_not_lt h)]
    simp

lemma shape_setCell (g : Grid) (p : Pos) (v : Nat) :
    shape (setCell g p v) = shape g := by
  by_cases hb : p.1 < g.length
  · unfold shape setCell
    rw [List.map_set]
    have e : ((g.getD p.1 []).set p.2 v).length = (g.map List.length).getD p.1 0 := by
      rw [List.length_set]
      exact length_getD_shape g p.1
    rw [e]
    exact list_set_getD_self _ p.1 0 (by simpa using hb)
  · unfold setCell
    rw [List.set_eq_of_length_le (Nat.le_of_not_lt hb)]

lemma shape_incCell (g : Grid) (p : Pos) : shape (incCell g p) = shape g :=
  shape_setCell g p _

lemma length_of_shape_eq {g g' : Grid} (h : shape g' = shape g) :
    g'.length = g.length := by
  have := congrArg List.length h
  simpa [shape] using this

lemma inBoundsOf_congr {g g' : Grid} (h : shape g' = shape g) (p : Pos) :
    inBoundsOf g' p ↔ inBoundsOf g p := by
  unfold inBoundsOf
  rw [length_getD_shape g' p.1, length_getD_shape g p.1, h, length_of_shape_eq h]

/-! ### The loop potential

Each iteration of the while loop strictly decreases
`|Q| + 8 * #{cells with value at most 9}`: a non-flash iteration shortens
the queue and leaves the count alone, a flash iteration enqueues at most
8 positions and moves the flashing cell from 9 to 10. -/

def count9 (g : Grid) : Nat :=
  (g.map fun row => row.countP fun v => decide (v ≤ 9)).sum

lemma countP_set_aux : ∀ (l : List Nat) (pred : Nat → Bool) (i : Nat) (v : Nat),
    i < l.length →
    (l.set i v).countP pred + (if pred (l.getD i 0) then 1 else 0)
      = l.countP pred + (if pred v then 1 else 0) := by
  intro l pred
  induction l with
  | nil => intro i v h; simp at h
  | cons a t ih =>
    intro i v h
    cases i with
    | zero =>
      cases hpa : pred a <;> cases hpv : pred v <;>
        simp [List.countP_cons, hpa, hpv]
    | succ n =>
      simp only [List.set_cons_succ, List.getD_cons_succ, List.countP_cons]
      have := ih n v (by simpa using h)
      omega

lemma sum_set_aux : ∀ (l : List Nat) (i : Nat) (v : Nat), i < l.length →
    (l.set i v).sum + l.getD i 0 = l.sum + v := by
  intro l
  induction l with
  | nil => intro i v h; simp at h
  | cons a t ih =>
    intro i v h
    cases i with
    | zero => simp [List.sum_cons]; omega
    | succ n =>
      simp only [List.set_cons_succ, List.getD_cons_succ, List.sum_cons]
      have := ih n v (by simpa using h)
      omega

lemma getD_map_countP (g : Grid) (i : Nat) (h : i < g.length) :
    ((g.map fun row => row.countP fun v => decide (v ≤ 9)).getD i 0)
      = (g.getD i []).countP fun v => decide (v ≤ 9) := by
  rw [List.getD_eq_getElem _ _ (by simpa using h), List.getD_eq_getElem _ _ h]
  simp

lemma count9_incCell_flash {g : Grid} {p : Pos} (h : getCell g p = 9) :
    count9 (incCell g p) + 1 = count9 g := by
  have hb : inBoundsOf g p := inBoundsOf_of_getCell_ne_zero (by simp [h])
  obtain ⟨hb1, hb2⟩ := hb
  unfold count9 incCell setCell
  rw [List.map_set]
  have hlen : p.1 < (g.map fun row => row.countP fun v => decide (v ≤ 9)).length := by
    simpa using hb1
  have hsum := sum_set_aux _ p.1
    (((g.getD p.1 []).set p.2 (getCell g p + 1)).countP fun v => decide (v ≤ 9)) hlen
  rw [getD_map_countP g p.1 hb1] at hsum
  have hcnt := countP_set_aux (g.getD p.1 []) (fun v => decide (v ≤ 9)) p.2
    (getCell g p + 1) hb2
  have hval : (g.getD p.1 []).getD p.2 0 = 9 := h
  rw [hval] at hcnt
  simp only [decide_eq_true_eq] at hcnt
  rw [if_pos (show (9 : Nat) ≤ 9 by decide),
    if_neg (show ¬ getCell g p + 1 ≤ 9 by omega)] at hcnt
  omega

lemma count9_incCell_not_flash {g : Grid} {p : Pos} (h : getCell g p ≠ 9) :
    count9 (incCell g p) = count9 g := by
  by_cases hb : inBoundsOf g p
  · obtain ⟨hb1, hb2⟩ := hb
    unfold count9 incCell setCell
    rw [List.map_set]
    have hlen : p.1 < (g.map fun row => row.countP fun v => decide (v ≤ 9)).length := by
      simpa using hb1
    have hsum := sum_set_aux _ p.1
      (((g.getD p.1 []).set p.2 (getCell g p + 1)).countP fun v => decide (v ≤ 9)) hlen
    rw [getD_map_countP g p.1 hb1] at hsum
    have hcnt := countP_set_aux (g.getD p.1 []) (fun v => decide (v ≤ 9)) p.2
      (getCell g p + 1) hb2
    have hval : (g.getD p.1 []).getD p.2 0 = getCell g p := rfl
    rw [hval] at hcnt
    simp only [decide_eq_true_eq] at hcnt
    have hiff : ((if getCell g p ≤ 9 then 1 else 0) : Nat)
        = if getCell g p + 1 ≤ 9 then 1 else 0 := by
      by_cases hle : getCell g p ≤ 8
      · rw [if_pos (show getCell g p ≤ 9 by omega),
          if_pos (show getCell g p + 1 ≤ 9 by omega)]
      · rw [if_neg (show ¬ getCell g p ≤ 9 by omega),
          if_neg (show ¬ getCell g p + 1 ≤ 9 by omega)]
    rw [hiff] at hcnt
    omega
  · rw [incCell_of_not_inBounds hb]

lemma length_neighbors_le (R C : Nat) (p : Pos) : (neighbors R C p).length ≤ 8 := by
  have := List.length_filterMap_le
    (fun d : Int × Int =>
      if 0 ≤ (p.1 : Int) + d.1 ∧ (p.1 : Int) + d.1 < (R : Int) ∧
          0 ≤ (p.2 : Int) + d.2 ∧ (p.2 : Int) + d.2 < (C : Int) then
        some (((p.1 : Int) + d.1).toNat, ((p.2 : Int) + d.2).toNat)
      else
        none) offsets
  simpa [neighbors, offsets] using this

/-- With fuel at least the potential, the while loop consumes the whole
queue. -/
lemma runQueue_queue_eq_nil (R C : Nat) : ∀ (fuel : Nat) (g : Grid) (q vis fl : List Pos),
    q.length + 8 * count9 g ≤ fuel →
    (runQueue R C fuel g q vis fl).queue = [] := by
  intro fuel
  induction fuel with
  | zero =>
    intro g q vis fl h
    cases q with
    | nil => simp [runQueue]
    | cons p rest => simp [List.length_cons] at h
  | succ n ih =>
    intro g q vis fl h
    cases q with
    | nil => simp [runQueue]
    | cons p rest =>
      by_cases hf : getCell g p = 9
      · simp only [runQueue, if_pos hf]
        apply ih
        have h1 := count9_incCell_flash hf
        have h2 : (neighbors R C p).length ≤ 8 := length_neighbors_le R C p
        simp only [List.length_append, List.length_cons] at *
        omega
      · simp only [runQueue, if_neg hf]
        apply ih
        have h1 := count9_incCell_not_flash hf
        simp only [List.length_cons] at h
        omega

/-! ### Running a segment of the queue that produces no flash -/

/-- Increment a list of cells in order (the net effect of dequeuing each
of them when none of them flashes). -/
def incList (g : Grid) (P : List Pos) : Grid :=
  P.foldl incCell g

lemma incList_nil (g : Grid) : incList g [] = g := rfl

lemma incList_cons (g : Grid) (p : Pos) (P : List Pos) :
    incList g (p :: P) = incList (incCell g p) P := rfl

lemma shape_incList (g : Grid) : ∀ P : List Pos, shape (incList g P) = shape g := by
  intro P
  induction P generalizing g with
  | nil => rfl
  | cons p P ih => rw [incList_cons, ih, shape_incCell]

lemma getCell_incList {g : Grid} {q : Pos} (hq : inBoundsOf g q) :
    ∀ P : List Pos, getCell (incList g P) q = getCell g q + P.count q := by
  intro P
  induction P generalizing g with
  | nil => simp [incList_nil]
  | cons p P ih =>
    rw [incList_cons, ih ((inBoundsOf_congr (shape_incCell g p) q).mpr hq)]
    rw [getCell_incCell]
    by_cases hqp : q = p
    · subst hqp
      rw [if_pos ⟨rfl, hq⟩, List.count_cons_self]
      omega
    · rw [if_neg (by tauto), List.count_cons_of_ne hqp]

lemma runQueue_nil (R C : Nat) (fuel : Nat) (g : Grid) (vis fl : List Pos) :
    runQueue R C fuel g [] vis fl = ⟨g, [], vis, fl⟩ := by
  cases fuel <;> simp [runQueue]

/-- Processing a queue segment in which every dequeued cell is seen
strictly below (or already strictly above) the threshold neither
flashes nor enqueues: it only increments each dequeued cell. -/
lemma runQueue_no_flash_segment (R C : Nat) :
    ∀ (P : List Pos) (fuel : Nat) (g : Grid) (S vis fl : List Pos),
    P.length ≤ fuel →
    (∀ p ∈ P, getCell g p + P.count p ≤ 9 ∨ 10 ≤ getCell g p) →
    runQueue R C fuel g (P ++ S) vis fl
      = runQueue R C (fuel - P.length) (incList g P) S (vis ++ P) fl := by
  intro P
  induction P with
  | nil => intro fuel g S vis fl hfuel hP; simp [incList_nil]
  | cons p P ih =>
    intro fuel g S vis fl hfuel hP
    obtain ⟨f, rfl⟩ : ∃ f, fuel = f + 1 := by
      cases fuel with
      | zero => simp [List.length_cons] at hfuel
      | succ f => exact ⟨f, rfl⟩
    have hpval : getCell g p ≠ 9 := by
      have := hP p (List.mem_cons_self p P)
      rw [List.count_cons_self] at this
      omega
    have hstep : runQueue R C (f + 1) g ((p :: P) ++ S) vis fl
        = runQueue R C f (incCell g p) (P ++ S) (vis ++ [p]) fl := by
      simp only [List.cons_append, runQueue, if_neg hpval, List.append_eq]
    rw [hstep, ih f (incCell g p) S (vis ++ [p]) fl (by simp at hfuel ⊢; omega)]
    · rw [incList_cons]
      congr 1
      · simp [List.length_cons]
      · simp
    · intro q hq
      have horig := hP q (List.mem_cons_of_mem p hq)
      by_cases hqp : q = p
      · subst hqp
        rw [List.count_cons_self] at horig
        have hle := getCell_le_incCell g q q
        have hle2 : getCell (incCell g q) q ≤ getCell g q + 1 := by
          rw [getCell_incCell]
          split <;> omega
        omega
      · rw [getCell_incCell_ne hqp]
        rw [List.count_cons_of_ne hqp] at horig
        exact horig

/-! ### Facts about the initial queue and the neighbour list -/

lemma initQueue_succ (R C : Nat) :
    initQueue (R + 1) C = initQueue R C ++ (List.range C).map fun c => (R, c) := by
  unfold initQueue
  rw [List.range_succ, List.flatMap_append]
  simp

lemma length_initQueue (C : Nat) : ∀ R, (initQueue R C).length = R * C := by
  intro R
  induction R with
  | zero => simp [initQueue]
  | succ n ih =>
    rw [initQueue_succ, List.length_append, ih, List.length_map, List.length_range]
    ring

lemma count_row (r : Nat) (q : Pos) : ∀ C : Nat,
    (((List.range C).map fun c => (r, c)).count q)
      = if q.1 = r ∧ q.2 < C then 1 else 0 := by
  obtain ⟨q1, q2⟩ := q
  intro C
  induction C with
  | zero => simp
  | succ n ih =>
    rw [List.range_succ, List.map_append, List.count_append, ih]
    have hsingle : (([(r, n)] : List Pos).count (q1, q2))
        = if (q1, q2) = (r, n) then 1 else 0 := by
      by_cases hq : (q1, q2) = (r, n) <;> simp [hq, List.count_singleton]
    simp only [List.map_cons, List.map_nil, hsingle]
    simp only [Prod.mk.injEq, Prod.fst, Prod.snd]
    split_ifs <;> simp_all <;> omega

lemma count_initQueue (C : Nat) (q : Pos) : ∀ R : Nat,
    ((initQueue R C).count q) = if q.1 < R ∧ q.2 < C then 1 else 0 := by
  intro R
  induction R with
  | zero => simp [initQueue]
  | succ n ih =>
    rw [initQueue_succ, List.count_append, ih, count_row]
    split_ifs <;> simp_all <;> omega

lemma mem_initQueue {R C : Nat} {q : Pos} :
    q ∈ initQueue R C ↔ q.1 < R ∧ q.2 < C := by
  rw [← List.count_pos_iff, count_initQueue]
  split_ifs with h <;> simp [h]

lemma mem_neighbors {R C : Nat} {p q : Pos} (h : q ∈ neighbors R C p) :
    q.1 < R ∧ q.2 < C := by
  unfold neighbors at h
  rw [List.mem_filterMap] at h
  obtain ⟨d, hd, hsome⟩ := h
  split at hsome
  · rename_i hcond
    obtain ⟨h1, h2, h3, h4⟩ := hcond
    rw [Option.some_inj] at hsome
    subst hsome
    constructor <;> simp <;> omega
  · simp at hsome

lemma not_self_mem_neighbors (R C : Nat) (p : Pos) : p ∉ neighbors R C p := by
  intro h
  unfold neighbors at h
  rw [List.mem_filterMap] at h
  obtain ⟨d, hd, hsome⟩ := h
  split at hsome
  · rename_i hcond
    obtain ⟨h1, h2, h3, h4⟩ := hcond
    rw [Option.some_inj] at hsome
    have e1 : ((p.1 : Int) + d.1).toNat = p.1 := congrArg Prod.fst hsome
    have e2 : ((p.2 : Int) + d.2).toNat = p.2 := congrArg Prod.snd hsome
    have hd1 : d.1 = 0 := by omega
    have hd2 : d.2 = 0 := by omega
    obtain ⟨da, db⟩ := d
    simp only [Prod.fst, Prod.snd] at hd1 hd2
    subst hd1
    subst hd2
    exact absurd hd (by decide)
  · simp at hsome

lemma nodup_neighbors (R C : Nat) (p : Pos) : (neighbors R C p).Nodup := by
  have hoff : offsets.Nodup := by decide
  refine List.Nodup.filterMap ?_ hoff
  intro a a' b hb hb'
  rw [Option.mem_def] at hb hb'
  split at hb
  · rename_i hcond
    obtain ⟨h1, h2, h3, h4⟩ := hcond
    rw [Option.some_inj] at hb
    split at hb'
    · rename_i hcond'
      obtain ⟨h1', h2', h3', h4'⟩ := hcond'
      rw [Option.some_inj] at hb'
      subst hb
      have e1 : ((p.1 : Int) + a'.1).toNat = ((p.1 : Int) + a.1).toNat :=
        congrArg Prod.fst hb'
      have e2 : ((p.2 : Int) + a'.2).toNat = ((p.2 : Int) + a.2).toNat :=
        congrArg Prod.snd hb'
      have ha1 : a.1 = a'.1 := by omega
      have ha2 : a.2 = a'.2 := by omega
      exact Prod.ext ha1 ha2
    · simp at hb'
  · simp at hb

/-! ### Invariants of the main loop -/

lemma shape_runQueue (R C : Nat) : ∀ (fuel : Nat) (g : Grid) (q vis fl : List Pos),
    shape (runQueue R C fuel g q vis fl).grid = shape g := by
  intro fuel
  induction fuel with
  | zero => intro g q vis fl; simp [runQueue]
  | succ n ih =>
    intro g q vis fl
    cases q with
    | nil => simp [runQueue]
    | cons p rest =>
      by_cases hf : getCell g p = 9
      · simp only [runQueue, if_pos hf]
        rw [ih, shape_incCell]
      · simp only [runQueue, if_neg hf]
        rw [ih, shape_incCell]

/-- Every cell recorded as flashed sits strictly above the threshold
from its flash on (values never decrease during the loop), so it can
never pass the `= 9` check again: the flash trace has no duplicates. -/
lemma runQueue_flashed_inv (R C : Nat) : ∀ (fuel : Nat) (g : Grid) (q vis fl : List Pos),
    (∀ p ∈ fl, 10 ≤ getCell g p) → fl.Nodup →
    (∀ p ∈ (runQueue R C fuel g q vis fl).flashed,
        10 ≤ getCell (runQueue R C fuel g q vis fl).grid p)
      ∧ (runQueue R C fuel g q vis fl).flashed.Nodup := by
  intro fuel
  induction fuel with
  | zero => intro g q vis fl h hn; exact ⟨h, hn⟩
  | succ n ih =>
    intro g q vis fl h hn
    cases q with
    | nil => exact ⟨h, hn⟩
    | cons p rest =>
      by_cases hf : getCell g p = 9
      · simp only [runQueue, if_pos hf]
        apply ih
        · intro x hx
          rw [List.mem_append] at hx
          rcases hx with hx | hx
          · exact le_trans (h x hx) (getCell_le_incCell g p x)
          · rw [List.mem_singleton] at hx
            subst hx
            rw [getCell_incCell_self (inBoundsOf_of_getCell_ne_zero (by simp [hf]))]
            omega
        · have hpfl : p ∉ fl := by
            intro hc
            have := h p hc
            omega
          simp [List.nodup_append, hn, hpfl]
      · simp only [runQueue, if_neg hf]
        apply ih
        · intro x hx
          exact le_trans (h x hx) (getCell_le_incCell g p x)
        · exact hn

/-- Everything that ever sits on the queue, and everything dequeued, is
inside the `R × C` rectangle: the initial fill is, and a flash only
enqueues bounds-checked neighbours. -/
lemma runQueue_visited_bounds (R C : Nat) : ∀ (fuel : Nat) (g : Grid) (q vis fl : List Pos),
    (∀ p ∈ q, p.1 < R ∧ p.2 < C) → (∀ p ∈ vis, p.1 < R ∧ p.2 < C) →
    (∀ p ∈ (runQueue R C fuel g q vis fl).visited, p.1 < R ∧ p.2 < C)
      ∧ (∀ p ∈ (runQueue R C fuel g q vis fl).queue, p.1 < R ∧ p.2 < C) := by
  intro fuel
  induction fuel with
  | zero => intro g q vis fl hq hv; exact ⟨hv, hq⟩
  | succ n ih =>
    intro g q vis fl hq hv
    cases q with
    | nil => exact ⟨hv, hq⟩
    | cons p rest =>
      have hrest : ∀ x ∈ rest, x.1 < R ∧ x.2 < C := fun x hx =>
        hq x (List.mem_cons_of_mem p hx)
      have hvp : ∀ x ∈ vis ++ [p], x.1 < R ∧ x.2 < C := by
        intro x hx
        rw [List.mem_append] at hx
        rcases hx with hx | hx
        · exact hv x hx
        · rw [List.mem_singleton] at hx
          subst hx
          exact hq x (List.mem_cons_self x rest)
      by_cases hf : getCell g p = 9
      · simp only [runQueue, if_pos hf]
        apply ih
        · intro x hx
          rw [List.mem_append] at hx
          rcases hx with hx | hx
          · exact hrest x hx
          · exact mem_neighbors hx
        · exact hvp
      · simp only [runQueue, if_neg hf]
        exact ih _ _ _ _ hrest hvp

/-! ### The final sweep -/

lemma shape_sweep (g : Grid) : shape (sweep g) = shape g := by
  simp [shape, sweep, List.map_map, Function.comp_def]

lemma getCell_sweep (g : Grid) (q : Pos) :
    getCell (sweep g) q = if 9 < getCell g q then 0 else getCell g q := by
  by_cases hb : inBoundsOf g q
  · obtain ⟨h1, h2⟩ := hb
    have h2' : q.2 < g[q.1].length := by
      rw [List.getD_eq_getElem _ _ h1] at h2
      exact h2
    have egc : getCell g q = g[q.1][q.2] := by
      unfold getCell
      rw [List.getD_eq_getElem _ _ h1, List.getD_eq_getElem _ _ h2']
    rw [egc]
    unfold getCell sweep
    rw [List.getD_eq_getElem _ _
      (show q.1 < (g.map fun row => row.map fun v => if 9 < v then 0 else v).length by
        simpa using h1)]
    rw [List.getElem_map]
    rw [List.getD_eq_getElem _ _
      (show q.2 < (g[q.1].map fun v => if 9 < v then 0 else v).length by
        simpa using h2')]
    rw [List.getElem_map]
  · have hb' : ¬ inBoundsOf (sweep g) q := by
      rw [inBoundsOf_congr (shape_sweep g) q]
      exact hb
    rw [getCell_of_not_inBounds g q hb, getCell_of_not_inBounds (sweep g) q hb']
    simp

lemma cells_sweep_le (g : Grid) : ∀ row ∈ sweep g, ∀ v ∈ row, v ≤ 9 := by
  intro row hrow v hv
  unfold sweep at hrow
  rw [List.mem_map] at hrow
  obtain ⟨row0, _, rfl⟩ := hrow
  rw [List.mem_map] at hv
  obtain ⟨v0, _, rfl⟩ := hv
  split <;> omega

/-! ### Valid inputs -/

lemma forall_cells_iff (Pr : Nat → Prop) (g : Grid) :
    (∀ row ∈ g, ∀ v ∈ row, Pr v) ↔ ∀ p : Pos, inBoundsOf g p → Pr (getCell g p) := by
  constructor
  · rintro h p ⟨h1, h2⟩
    have hrow : g.getD p.1 [] ∈ g := by
      rw [List.getD_eq_getElem _ _ h1]
      exact List.getElem_mem h1
    have hcell : (g.getD p.1 []).getD p.2 0 ∈ g.getD p.1 [] := by
      rw [List.getD_eq_getElem _ _ h2]
      exact List.getElem_mem h2
    exact h _ hrow _ hcell
  · intro h row hrow v hv
    rw [List.mem_iff_getElem] at hrow
    obtain ⟨i, hi, rfl⟩ := hrow
    rw [List.mem_iff_getElem] at hv
    obtain ⟨j, hj, rfl⟩ := hv
    have hb : inBoundsOf g (i, j) := by
      refine ⟨hi, ?_⟩
      show j < (g.getD i []).length
      rw [List.getD_eq_getElem _ _ hi]
      exact hj
    have e : getCell g (i, j) = g[i][j] := by
      unfold getCell
      simp only
      rw [List.getD_eq_getElem _ _ hi, List.getD_eq_getElem _ _ hj]
    have := h (i, j) hb
    rwa [e] at this

lemma validB_iff (g : Grid) : validB g = true ↔
    g ≠ [] ∧ (∀ row ∈ g, row.length = (g.headD []).length)
      ∧ (∀ row ∈ g, ∀ v ∈ row, v ≤ 9) := by
  unfold validB rectangularB
  simp only [Bool.and_eq_true, Bool.not_eq_true', List.isEmpty_eq_false,
    List.all_eq_true, beq_iff_eq, decide_eq_true_eq, and_assoc]

lemma validB_ne_nil {g : Grid} (h : validB g = true) : g ≠ [] :=
  ((validB_iff g).mp h).1

lemma validB_rect {g : Grid} (h : validB g = true) :
    ∀ row ∈ g, row.length = (g.headD []).length :=
  ((validB_iff g).mp h).2.1

lemma validB_cells {g : Grid} (h : validB g = true) :
    ∀ p : Pos, inBoundsOf g p → getCell g p ≤ 9 :=
  (forall_cells_iff _ g).mp ((validB_iff g).mp h).2.2

/-- On a rectangular grid the index-based bounds of the source coincide
with actual in-boundedness. -/
lemma inBoundsOf_iff_RC {g : Grid}
    (hrect : ∀ row ∈ g, row.length = (g.headD []).length) (p : Pos) :
    inBoundsOf g p ↔ p.1 < g.length ∧ p.2 < (g.headD []).length := by
  unfold inBoundsOf
  constructor
  · rintro ⟨h1, h2⟩
    refine ⟨h1, ?_⟩
    have hmem : g.getD p.1 [] ∈ g := by
      rw [List.getD_eq_getElem _ _ h1]
      exact List.getElem_mem h1
    have := hrect _ hmem
    omega
  · rintro ⟨h1, h2⟩
    refine ⟨h1, ?_⟩
    have hmem : g.getD p.1 [] ∈ g := by
      rw [List.getD_eq_getElem _ _ h1]
      exact List.getElem_mem h1
    have := hrect _ hmem
    omega

lemma sum_map_le (K : Nat) : ∀ (l : List (List Nat)) (f : List Nat → Nat),
    (∀ x ∈ l, f x ≤ K) → (l.map f).sum ≤ l.length * K := by
  intro l f
  induction l with
  | nil => simp
  | cons a t ih =>
    intro h
    simp only [List.map_cons, List.sum_cons, List.length_cons]
    have ht := ih (fun x hx => h x (List.mem_cons_of_mem a hx))
    have ha := h a (List.mem_cons_self a t)
    calc f a + (t.map f).sum ≤ K + t.length * K := by omega
    _ = (t.length + 1) * K := by ring

lemma count9_le_of_rect {g : Grid}
    (hrect : ∀ row ∈ g, row.length = (g.headD []).length) :
    count9 g ≤ g.length * (g.headD []).length := by
  unfold count9
  apply sum_map_le
  intro row hrow
  calc (row.countP fun v => decide (v ≤ 9)) ≤ row.length := List.countP_le_length _
  _ = (g.headD []).length := hrect row hrow

/-! ### Step-level consequences -/

lemma stepRun_eq (g : Grid) : stepRun g
    = runQueue g.length (g.headD []).length
        (9 * g.length * (g.headD []).length + 1) g
        (initQueue g.length (g.headD []).length) [] [] := rfl

lemma stepRun_queue_nil {g : Grid} (h : validB g = true) : (stepRun g).queue = [] := by
  rw [stepRun_eq]
  apply runQueue_queue_eq_nil
  rw [length_initQueue]
  have h1 := count9_le_of_rect (validB_rect h)
  have h2 : 8 * count9 g ≤ 8 * (g.length * (g.headD []).length) :=
    Nat.mul_le_mul_left 8 h1
  have h3 : 9 * g.length * (g.headD []).length
      = 9 * (g.length * (g.headD []).length) := by ring
  rw [h3]
  omega

lemma stepRun_flashed_nodup (g : Grid) : (stepRun g).flashed.Nodup := by
  rw [stepRun_eq]
  exact (runQueue_flashed_inv _ _ _ _ _ _ _ (by simp) List.nodup_nil).2

lemma count_le_one_of_nodup : ∀ l : List Pos, l.Nodup → ∀ p : Pos, l.count p ≤ 1 := by
  intro l
  induction l with
  | nil => simp
  | cons a t ih =>
    intro h p
    obtain ⟨ha, ht⟩ := List.nodup_cons.mp h
    rw [List.count_cons]
    by_cases hpa : p = a
    · subst hpa
      have h0 : t.count p = 0 := List.count_eq_zero.mpr ha
      simp [h0]
    · have := ih ht p
      have hap : ¬ a = p := fun hc => hpa hc.symm
      simp only [beq_iff_eq, if_neg hap]
      omega

lemma step_of_ne_nil {g : Grid} (h : g ≠ []) :
    step g = some (sweep (stepRun g).grid, (stepRun g).flashed.length) := by
  unfold step
  rw [if_neg (by simp [h])]

/-! ### The claims -/

/-- C1: for every valid grid, `step` succeeds, returns the flash count
accumulated by the loop, and leaves every cell of the mutated grid in
`[0, 9]` (the final sweep resets every over-threshold cell). -/
theorem C1_step_cells_in_range (g : Grid) (h : validB g = true) :
    ∃ g' : Grid, step g = some (g', (stepRun g).flashed.length) ∧
      ∀ row ∈ g', ∀ v ∈ row, 0 ≤ v ∧ v ≤ 9 := by
  refine ⟨sweep (stepRun g).grid, step_of_ne_nil (validB_ne_nil h), ?_⟩
  intro row hrow v hv
  exact ⟨Nat.zero_le v, cells_sweep_le _ row hrow v hv⟩

theorem C1_witness : validB [[9]] = true ∧
    ∃ g' : Grid, step [[9]] = some (g', (stepRun [[9]]).flashed.length) ∧
      ∀ row ∈ g', ∀ v ∈ row, 0 ≤ v ∧ v ≤ 9 :=
  ⟨by decide, C1_step_cells_in_range [[9]] (by decide)⟩

/-- C2 (counterexample to the claim): there is no valid grid on which
some cell flashes twice during one step; the claimed multi-flash
behaviour is impossible because a cell's value strictly increases at
each of its own dequeues and the flash check is an equality with 9. -/
theorem C2_counterexample :
    (∃ g : Grid, ∃ p : Pos, validB g = true ∧ 2 ≤ (stepRun g).flashed.count p)
      = False := by
  apply eq_false
  rintro ⟨g, p, -, h2⟩
  have h1 := count_le_one_of_nodup _ (stepRun_flashed_nodup g) p
  omega

/-- C2 (amended): within a single `step` call every cell flashes at most
once — each dequeue checks the value at dequeue time, and a cell's value
equals 9 at most at one of its dequeues.  (Cells can still be *enqueued
and incremented* several times; only the flash count per cell is bounded
by one.) -/
theorem C2_flash_at_most_once (g : Grid) (p : Pos) :
    (stepRun g).flashed.count p ≤ 1 :=
  count_le_one_of_nodup _ (stepRun_flashed_nodup g) p

/-- C4: on the 3×3 all-nines grid one step yields exactly 9 flashes and
every cell becomes 0. -/
theorem C4_all_nines_3x3 :
    step [[9, 9, 9], [9, 9, 9], [9, 9, 9]]
      = some ([[0, 0, 0], [0, 0, 0], [0, 0, 0]], 9) := by
  decide

/-- C6 (counterexample to the claim): a non-empty grid with unequal row
lengths is *not* rejected — `step` returns a result rather than
surfacing an error, because the source checks nothing beyond
`levels.at(0)`. -/
theorem C6_counterexample :
    (step [[1, 2], [3]]).isSome = true ∧ rectangularB [[1, 2], [3]] = false := by
  decide

/-- C6 (amended): `step` errors exactly on the empty grid (the
`std::out_of_range` of `levels.at(0)`); unequal row lengths go
undetected. -/
theorem C6_error_iff_empty (g : Grid) : step g = none ↔ g = [] := by
  unfold step
  by_cases h : g.isEmpty
  · rw [if_pos h]
    simp [List.isEmpty_iff.mp h]
  · rw [if_neg h]
    simp only [List.isEmpty_iff] at h
    simp [h]

/-- C7: `step` is deterministic — equal input grids give equal results
(the embedding is a pure function of the grid). -/
theorem C7_deterministic (g1 g2 : Grid) (h : g1 = g2) : step g1 = step g2 :=
  congrArg step h

theorem C7_witness : step [[0]] = step [[0]] :=
  C7_deterministic [[0]] [[0]] rfl

/-- C8: every coordinate that ever enters the work queue (equivalently:
every dequeued coordinate plus whatever remains queued) lies in
`[0,R) × [0,C)`, so the propagation loop and sweep never index out of
bounds and the out-of-bounds branch of the neighbour guard is the only
place coordinates are discarded. -/
theorem C8_enqueued_in_bounds (g : Grid) (_h : validB g = true) :
    ∀ p ∈ (stepRun g).visited ++ (stepRun g).queue,
      p.1 < g.length ∧ p.2 < (g.headD []).length := by
  intro p hp
  have hinv := runQueue_visited_bounds g.length (g.headD []).length
    (9 * g.length * (g.headD []).length + 1) g
    (initQueue g.length (g.headD []).length) [] []
    (fun x hx => mem_initQueue.mp hx)
    (fun x hx => absurd hx (List.not_mem_nil x))
  rw [stepRun_eq, List.mem_append] at hp
  rcases hp with hp | hp
  · exact hinv.1 p hp
  · exact hinv.2 p hp

theorem C8_witness : validB [[9]] = true ∧
    ∀ p ∈ (stepRun [[9]]).visited ++ (stepRun [[9]]).queue,
      p.1 < ([[9]] : Grid).length ∧ p.2 < (([[9]] : Grid).headD []).length :=
  ⟨by decide, C8_enqueued_in_bounds [[9]] (by decide)⟩

/-- C9: on every valid grid the while loop terminates — the supplied
fuel dominates the strictly decreasing potential
`|Q| + 8 * #{cells ≤ 9}`, so the queue is fully consumed. -/
theorem C9_step_terminates (g : Grid) (h : validB g = true) :
    (stepRun g).queue = [] :=
  stepRun_queue_nil h

theorem C9_witness : validB [[9]] = true ∧ (stepRun [[9]]).queue = [] :=
  ⟨by decide, C9_step_terminates [[9]] (by decide)⟩

/-- C10: a successful `step` never changes the number of rows or any
row's length; only cell values change. -/
theorem C10_shape_preserved (g g' : Grid) (n : Nat) (h : step g = some (g', n)) :
    shape g' = shape g := by
  unfold step at h
  by_cases he : g.isEmpty
  · rw [if_pos he] at h
    cases h
  · rw [if_neg he] at h
    have hg : g' = sweep (stepRun g).grid := by
      injection h with h'
      exact (congrArg Prod.fst h').symm
    subst hg
    rw [shape_sweep, stepRun_eq, shape_runQueue]

theorem C10_witness : step [[0]] = some ([[1]], 0) ∧ shape [[1]] = shape [[0]] :=
  ⟨by decide, C10_shape_preserved [[0]] [[1]] 0 (by decide)⟩

/-- C5: on a non-empty rectangular all-zero grid one step flashes
nothing and leaves every cell equal to 1 (each cell is dequeued exactly
once and its unconditional increment applied). -/
theorem C5_all_zeros (g : Grid) (hne : g ≠ [])
    (hrect : ∀ row ∈ g, row.length = (g.headD []).length)
    (hzero : ∀ row ∈ g, ∀ v ∈ row, v = 0) :
    ∃ g' : Grid, step g = some (g', 0) ∧ ∀ row ∈ g', ∀ v ∈ row, v = 1 := by
  have hcell0 : ∀ p : Pos, inBoundsOf g p → getCell g p = 0 :=
    (forall_cells_iff (fun v => v = 0) g).mp hzero
  have hfuel : (initQueue g.length (g.headD []).length).length
      ≤ 9 * g.length * (g.headD []).length + 1 := by
    rw [length_initQueue,
      show 9 * g.length * (g.headD []).length
        = 9 * (g.length * (g.headD []).length) from by ring]
    omega
  have hcond : ∀ p ∈ initQueue g.length (g.headD []).length,
      getCell g p + (initQueue g.length (g.headD []).length).count p ≤ 9
        ∨ 10 ≤ getCell g p := by
    intro p hp
    left
    have hb := mem_initQueue.mp hp
    have hbg : inBoundsOf g p := (inBoundsOf_iff_RC hrect p).mpr hb
    rw [hcell0 p hbg, count_initQueue, if_pos hb]
    omega
  have hseg := runQueue_no_flash_segment g.length (g.headD []).length
    (initQueue g.length (g.headD []).length)
    (9 * g.length * (g.headD []).length + 1) g [] [] [] hfuel hcond
  rw [List.append_nil, runQueue_nil] at hseg
  have hsr : stepRun g
      = ⟨incList g (initQueue g.length (g.headD []).length), [],
          [] ++ initQueue g.length (g.headD []).length, []⟩ := by
    rw [stepRun_eq, hseg]
  refine ⟨sweep (stepRun g).grid, ?_, ?_⟩
  · rw [step_of_ne_nil hne, hsr]
    rfl
  · rw [hsr]
    simp only
    rw [forall_cells_iff]
    intro p hb
    have hshape : shape (incList g (initQueue g.length (g.headD []).length))
        = shape g := shape_incList g _
    have hbg : inBoundsOf g p := by
      have h1 := (inBoundsOf_congr (shape_sweep _) p).mp hb
      exact (inBoundsOf_congr hshape p).mp h1
    rw [getCell_sweep, getCell_incList hbg, hcell0 p hbg, count_initQueue,
      if_pos ((inBoundsOf_iff_RC hrect p).mp hbg)]
    norm_num

theorem C5_witness :
    (([[0]] : Grid) ≠ []
      ∧ (∀ row ∈ ([[0]] : Grid), row.length = (([[0]] : Grid).headD []).length)
      ∧ (∀ row ∈ ([[0]] : Grid), ∀ v ∈ row, v = 0))
    ∧ ∃ g' : Grid, step [[0]] = some (g', 0) ∧ ∀ row ∈ g', ∀ v ∈ row, v = 1 :=
  ⟨⟨by decide, by decide, by decide⟩,
    C5_all_zeros [[0]] (by decide) (by decide) (by decide)⟩

/-- C3 (counterexample to the claim): on `[[9,0],[0,0]]` the step
flashes once and resets the centre, but the in-bounds neighbour `(0,1)`
of the flashing cell ends at 2, not at its initial value plus 1: it is
dequeued twice (once from the initial full-grid enqueue, once from the
flash) and incremented at each dequeue. -/
theorem C3_counterexample :
    step [[9, 0], [0, 0]] = some ([[0, 2], [2, 2]], 1)
      ∧ getCell [[0, 2], [2, 2]] (0, 1) ≠ getCell [[9, 0], [0, 0]] (0, 1) + 1 := by
  decide

/-- C3 (amended): on a valid grid with one cell at 9 whose in-bounds
neighbours are all 0 and with every other cell at most 8, one step
produces exactly one flash, resets the flashing cell to 0, and
increases each in-bounds neighbour by exactly 2 (not 1): once at its
initial dequeue and once at the dequeue caused by the flash. -/
theorem C3_single_flasher (g : Grid) (p0 : Pos) (hv : validB g = true)
    (hp0 : getCell g p0 = 9)
    (hnb : ∀ q ∈ neighbors g.length (g.headD []).length p0, getCell g q = 0)
    (hoth : ∀ q : Pos, inBoundsOf g q → q ≠ p0 → getCell g q ≤ 8) :
    ∃ g' : Grid, step g = some (g', 1) ∧ getCell g' p0 = 0 ∧
      ∀ q ∈ neighbors g.length (g.headD []).length p0,
        getCell g' q = getCell g q + 2 := by
  have hrect := validB_rect hv
  have hne := validB_ne_nil hv
  have hb0 : inBoundsOf g p0 := inBoundsOf_of_getCell_ne_zero (by omega)
  have hRC0 : p0.1 < g.length ∧ p0.2 < (g.headD []).length :=
    (inBoundsOf_iff_RC hrect p0).mp hb0
  have hRCpos : 0 < g.length * (g.headD []).length :=
    Nat.mul_pos (by omega) (by omega)
  have hmem : p0 ∈ initQueue g.length (g.headD []).length :=
    mem_initQueue.mpr hRC0
  obtain ⟨A, B, hsplit⟩ := List.append_of_mem hmem
  have hcount1 : (initQueue g.length (g.headD []).length).count p0 = 1 := by
    rw [count_initQueue, if_pos hRC0]
  have hAB0 : A.count p0 = 0 ∧ B.count p0 = 0 := by
    have h := hcount1
    rw [hsplit, List.count_append, List.count_cons_self] at h
    omega
  have hnA : p0 ∉ A := List.count_eq_zero.mp hAB0.1
  have hnB : p0 ∉ B := List.count_eq_zero.mp hAB0.2
  have hlenQ0 : (initQueue g.length (g.headD []).length).length
      = g.length * (g.headD []).length := length_initQueue _ _
  have hlensum : A.length + B.length + 1 = g.length * (g.headD []).length := by
    have h := congrArg List.length hsplit
    rw [hlenQ0, List.length_append, List.length_cons] at h
    omega
  have hcnt_split : ∀ q : Pos, q ≠ p0 →
      A.count q + B.count q = (initQueue g.length (g.headD []).length).count q := by
    intro q hq
    rw [hsplit, List.count_append, List.count_cons_of_ne hq]
  have hmemA : ∀ q ∈ A, inBoundsOf g q ∧ q ≠ p0 := by
    intro q hq
    have hqQ : q ∈ initQueue g.length (g.headD []).length := by
      rw [hsplit]
      exact List.mem_append_left _ hq
    refine ⟨(inBoundsOf_iff_RC hrect q).mpr (mem_initQueue.mp hqQ), ?_⟩
    intro hc
    subst hc
    exact hnA hq
  have hmemB : ∀ q ∈ B, inBoundsOf g q ∧ q ≠ p0 := by
    intro q hq
    have hqQ : q ∈ initQueue g.length (g.headD []).length := by
      rw [hsplit]
      exact List.mem_append_right _ (List.mem_cons_of_mem p0 hq)
    refine ⟨(inBoundsOf_iff_RC hrect q).mpr (mem_initQueue.mp hqQ), ?_⟩
    intro hc
    subst hc
    exact hnB hq
  have hmemN : ∀ q ∈ neighbors g.length (g.headD []).length p0,
      inBoundsOf g q ∧ q ≠ p0 := by
    intro q hq
    refine ⟨(inBoundsOf_iff_RC hrect q).mpr (mem_neighbors hq), ?_⟩
    intro hc
    subst hc
    exact not_self_mem_neighbors _ _ q hq
  -- phase 1: the prefix before p0 produces no flash
  have hcountA_le : ∀ q : Pos, A.count q ≤ (initQueue g.length (g.headD []).length).count q := by
    intro q
    rw [hsplit, List.count_append]
    omega
  have hfuelA : A.length ≤ 9 * g.length * (g.headD []).length + 1 := by
    rw [show 9 * g.length * (g.headD []).length
      = 9 * (g.length * (g.headD []).length) from by ring]
    omega
  have hcondA : ∀ q ∈ A, getCell g q + A.count q ≤ 9 ∨ 10 ≤ getCell g q := by
    intro q hq
    left
    obtain ⟨hbq, hqp0⟩ := hmemA q hq
    have h8 := hoth q hbq hqp0
    have hle := hcountA_le q
    rw [count_initQueue] at hle
    have h1 : A.count q ≤ 1 := by
      by_cases hc : q.1 < g.length ∧ q.2 < (g.headD []).length
      · rw [if_pos hc] at hle
        exact hle
      · rw [if_neg hc] at hle
        omega
    omega
  have hsegA := runQueue_no_flash_segment g.length (g.headD []).length A
    (9 * g.length * (g.headD []).length + 1) g (p0 :: B) [] [] hfuelA hcondA
  -- the flash step
  have hkpos : 1 ≤ 9 * g.length * (g.headD []).length + 1 - A.length := by
    rw [show 9 * g.length * (g.headD []).length
      = 9 * (g.length * (g.headD []).length) from by ring]
    omega
  obtain ⟨k, hkeq⟩ : ∃ k, 9 * g.length * (g.headD []).length + 1 - A.length = k + 1 :=
    ⟨9 * g.length * (g.headD []).length + 1 - A.length - 1, by omega⟩
  have hval9 : getCell (incList g A) p0 = 9 := by
    rw [getCell_incList hb0 A, hAB0.1, hp0]
  have hflash : runQueue g.length (g.headD []).length (k + 1) (incList g A)
      (p0 :: B) ([] ++ A) []
      = runQueue g.length (g.headD []).length k (incCell (incList g A) p0)
          (B ++ neighbors g.length (g.headD []).length p0)
          (([] ++ A) ++ [p0]) ([] ++ [p0]) := by
    simp only [runQueue, if_pos hval9]
  -- phase 3: the rest of the queue plus the enqueued neighbours, no flash
  have hshape1 : shape (incList g A) = shape g := shape_incList g A
  have hshape2 : shape (incCell (incList g A) p0) = shape g := by
    rw [shape_incCell, hshape1]
  have hb0g1 : inBoundsOf (incList g A) p0 := (inBoundsOf_congr hshape1 p0).mpr hb0
  have hg2p0 : getCell (incCell (incList g A) p0) p0 = 10 := by
    rw [getCell_incCell_self hb0g1, hval9]
  have hg2other : ∀ q : Pos, inBoundsOf g q → q ≠ p0 →
      getCell (incCell (incList g A) p0) q = getCell g q + A.count q := by
    intro q hbq hqp0
    rw [getCell_incCell_ne hqp0, getCell_incList hbq A]
  have hNlen := length_neighbors_le g.length (g.headD []).length p0
  have hfuelBN : (B ++ neighbors g.length (g.headD []).length p0).length ≤ k := by
    rw [List.length_append]
    rw [show 9 * g.length * (g.headD []).length
      = 9 * (g.length * (g.headD []).length) from by ring] at hkeq
    omega
  have hqcount : ∀ q : Pos, inBoundsOf g q → q ≠ p0 →
      A.count q + B.count q = 1 := by
    intro q hbq hqp0
    rw [hcnt_split q hqp0, count_initQueue,
      if_pos ((inBoundsOf_iff_RC hrect q).mp hbq)]
  have hcondBN : ∀ q ∈ B ++ neighbors g.length (g.headD []).length p0,
      getCell (incCell (incList g A) p0) q
          + (B ++ neighbors g.length (g.headD []).length p0).count q ≤ 9
        ∨ 10 ≤ getCell (incCell (incList g A) p0) q := by
    intro q hq
    left
    have hmemq : inBoundsOf g q ∧ q ≠ p0 := by
      rw [List.mem_append] at hq
      rcases hq with hq | hq
      · exact hmemB q hq
      · exact hmemN q hq
    obtain ⟨hbq, hqp0⟩ := hmemq
    rw [hg2other q hbq hqp0, List.count_append]
    have h1 := hqcount q hbq hqp0
    by_cases hqN : q ∈ neighbors g.length (g.headD []).length p0
    · have h0 : getCell g q = 0 := hnb q hqN
      have hc8 : (neighbors g.length (g.headD []).length p0).count q ≤ 8 :=
        le_trans (List.count_le_length q _) hNlen
      omega
    · have h0 : (neighbors g.length (g.headD []).length p0).count q = 0 :=
        List.count_eq_zero.mpr hqN
      have h8 := hoth q hbq hqp0
      omega
  have hsegBN := runQueue_no_flash_segment g.length (g.headD []).length
    (B ++ neighbors g.length (g.headD []).length p0) k
    (incCell (incList g A) p0) [] (([] ++ A) ++ [p0]) ([] ++ [p0]) hfuelBN hcondBN
  rw [List.append_nil, runQueue_nil] at hsegBN
  -- assemble the full run
  have hsr : stepRun g
      = ⟨incList (incCell (incList g A) p0)
            (B ++ neighbors g.length (g.headD []).length p0), [],
          (([] ++ A) ++ [p0]) ++ (B ++ neighbors g.length (g.headD []).length p0),
          [] ++ [p0]⟩ := by
    rw [stepRun_eq, hsplit, hsegA, hkeq, hflash, hsegBN]
  -- final values
  have hshape3 : shape (incList (incCell (incList g A) p0)
      (B ++ neighbors g.length (g.headD []).length p0)) = shape g := by
    rw [shape_incList, hshape2]
  have hb0g2 : inBoundsOf (incCell (incList g A) p0) p0 :=
    (inBoundsOf_congr hshape2 p0).mpr hb0
  have hg3p0 : getCell (incList (incCell (incList g A) p0)
      (B ++ neighbors g.length (g.headD []).length p0)) p0 = 10 := by
    rw [getCell_incList hb0g2, hg2p0, List.count_append,
      List.count_eq_zero.mpr hnB,
      List.count_eq_zero.mpr (not_self_mem_neighbors g.length (g.headD []).length p0)]
  have hg3nb : ∀ q ∈ neighbors g.length (g.headD []).length p0,
      getCell (incList (incCell (incList g A) p0)
        (B ++ neighbors g.length (g.headD []).length p0)) q = 2 := by
    intro q hq
    obtain ⟨hbq, hqp0⟩ := hmemN q hq
    have hbq2 : inBoundsOf (incCell (incList g A) p0) q :=
      (inBoundsOf_congr hshape2 q).mpr hbq
    have hcountN1 : (neighbors g.length (g.headD []).length p0).count q = 1 := by
      have hle := count_le_one_of_nodup _
        (nodup_neighbors g.length (g.headD []).length p0) q
      have hge : 0 < (neighbors g.length (g.headD []).length p0).count q :=
        List.count_pos_iff.mpr hq
      omega
    rw [getCell_incList hbq2, hg2other q hbq hqp0, List.count_append, hcountN1,
      hnb q hq]
    have h1 := hqcount q hbq hqp0
    omega
  refine ⟨sweep (stepRun g).grid, ?_, ?_, ?_⟩
  · rw [step_of_ne_nil hne, hsr]
    rfl
  · rw [hsr]
    simp only
    rw [getCell_sweep, hg3p0]
    norm_num
  · intro q hq
    rw [hsr]
    simp only
    rw [getCell_sweep, hg3nb q hq, hnb q hq]
    norm_num

theorem C3_witness :
    (validB [[9, 0], [0, 0]] = true
        ∧ getCell [[9, 0], [0, 0]] (0, 0) = 9
        ∧ (∀ q ∈ neighbors ([[9, 0], [0, 0]] : Grid).length
              (([[9, 0], [0, 0]] : Grid).headD []).length (0, 0),
            getCell [[9, 0], [0, 0]] q = 0)
        ∧ (∀ q : Pos, inBoundsOf [[9, 0], [0, 0]] q → q ≠ (0, 0) →
            getCell [[9, 0], [0, 0]] q ≤ 8))
      ∧ ∃ g' : Grid, step [[9, 0], [0, 0]] = some (g', 1)
          ∧ getCell g' (0, 0) = 0
          ∧ ∀ q ∈ neighbors ([[9, 0], [0, 0]] : Grid).length
                (([[9, 0], [0, 0]] : Grid).headD []).length (0, 0),
              getCell g' q = getCell [[9, 0], [0, 0]] q + 2 := by
  have h4 : ∀ q : Pos, inBoundsOf [[9, 0], [0, 0]] q → q ≠ (0, 0) →
      getCell [[9, 0], [0, 0]] q ≤ 8 := by
    rintro ⟨q1, q2⟩ ⟨h1, h2⟩ hne
    have e1 : q1 < 2 := by simpa using h1
    have e2 : q2 < 2 := by
      interval_cases q1 <;> simpa using h2
    interval_cases q1 <;> interval_cases q2 <;>
      first
        | exact absurd rfl hne
        | decide
  exact ⟨⟨by decide, by decide, by decide, h4⟩,
    C3_single_flasher [[9, 0], [0, 0]] (0, 0) (by decide) (by decide) (by decide) h4⟩
